import Mathlib

/-!
Verification of the option-pricing engine: a shallow embedding of
`binomial_pricing.py` and `monte_carlo_pricing.py` in Lean 4.

Python floats are modelled as real numbers (`ℝ`); the user-payoff
expression evaluator is modelled over the rationals (`ℚ`) so that it
stays computable.  Python exceptions are modelled with `Except` over
explicit error inductives, named after the error taxonomy of the design
document (e.g. `invalidRiskNeutralProbability` for the `ValueError`
raised by `_risk_neutral_prob`).
-/

/-- Embedding of the Python string method `str.lower()` (the option kind
strings of interest are ASCII): lower-case every character. Defined by a
plain `List.map` so that it evaluates under `decide` and `rfl`. -/
def strLower (s : String) : String := String.mk (s.data.map Char.toLower)

theorem getD_map_range {α : Type} (f : ℕ → α) (dflt : α) {n j : ℕ}
    (h : j < n) : ((List.range n).map f).getD j dflt = f j := by
  rw [List.getD_eq_getElem _ _ (by simpa using h)]
  simp

theorem getD_reverse_map_range {α : Type} (f : ℕ → α) (dflt : α) {n k : ℕ}
    (h : k < n) :
    ((List.range n).map f).reverse.getD k dflt = f (n - 1 - k) := by
  rw [List.getD_eq_getElem _ _ (by simpa using h)]
  rw [List.getElem_reverse]
  simp

theorem getD_zero_scanl (f : ℝ → ℝ → ℝ) (b : ℝ) (l : List ℝ) :
    (l.scanl f b).getD 0 0 = b := by
  cases l <;> rfl

theorem getD_succ_scanl (f : ℝ → ℝ → ℝ) :
    ∀ (l : List ℝ) (b : ℝ) (k : ℕ), k < l.length →
      (l.scanl f b).getD (k + 1) 0
        = f ((l.scanl f b).getD k 0) (l.getD k 0)
  | [], _, k, hk => by simp at hk
  | a :: l, b, 0, _ => by
    rw [List.scanl_cons]
    show (l.scanl f (f b a)).getD 0 0 = f b (a :: l).head!
    rw [getD_zero_scanl]
    rfl
  | a :: l, b, k + 1, hk => by
    rw [List.scanl_cons]
    show (l.scanl f (f b a)).getD (k + 1) 0
      = f ((l.scanl f (f b a)).getD k 0) (l.getD k 0)
    exact getD_succ_scanl f l (f b a) k (by simpa using hk)

theorem foldl_eq_scanl_getD (f : ℝ → ℝ → ℝ) :
    ∀ (l : List ℝ) (b : ℝ),
      l.foldl f b = (l.scanl f b).getD l.length 0
  | [], b => rfl
  | a :: l, b => by
    rw [List.foldl_cons, List.scanl_cons]
    show l.foldl f (f b a) = (l.scanl f (f b a)).getD l.length 0
    exact foldl_eq_scanl_getD f l (f b a)

theorem list_map_range_sum (f : ℕ → ℝ) (n : ℕ) :
    ((List.range n).map f).sum = ∑ i in Finset.range n, f i := by
  induction n with
  | zero => simp
  | succ n ih =>
    rw [List.range_succ, List.map_append, List.sum_append,
      Finset.sum_range_succ, ih]
    simp


namespace Binomial

/-- Errors raised by `binomial_pricing.py`, one constructor per distinct
Python exception site: invalid option kind (`ValueError` in
`OptionSpec.payoff`), non-positive step count, risk-neutral probability
outside `[0,1]`, float division by zero (when `u == d` in
`_risk_neutral_prob`), and `math.sqrt` of a negative number. -/
inductive PriceError where
  | invalidContract
  | invalidStepCount
  | invalidRiskNeutralProbability
  | zeroDivisionError
  | mathDomainError
  deriving DecidableEq, Repr

/-- Embedding of the frozen dataclass `OptionSpec` of
`binomial_pricing.py`: kind string, strike, maturity, American flag and
continuous dividend yield. Construction performs no validation, exactly
as a Python dataclass. -/
structure OptionSpec where
  kind : String
  strike : ℝ
  maturity : ℝ
  american : Bool := false
  dividend_yield : ℝ := 0

/-- Embedding of the frozen dataclass `ModelParams`. -/
structure ModelParams where
  spot : ℝ
  rate : ℝ
  volatility : ℝ

/-- Embedding of the frozen dataclass `BinomialResult`. -/
structure BinomialResult where
  price : ℝ
  tree : List (List ℝ)

/-- The kind strings accepted by `OptionSpec.payoff`:
`self.kind.lower() in {"call", "put"}`. -/
def OptionSpec.validKind (o : OptionSpec) : Prop :=
  strLower o.kind = "call" ∨ strLower o.kind = "put"

instance (o : OptionSpec) : Decidable o.validKind :=
  inferInstanceAs (Decidable (strLower o.kind = "call" ∨ strLower o.kind = "put"))

/-- Embedding of `OptionSpec.payoff`: raises `ValueError` when the
lower-cased kind is neither call nor put, returns `max(spot - strike, 0)`
for a call and `max(strike - spot, 0)` otherwise (i.e. for a put). -/
noncomputable def OptionSpec.payoff (o : OptionSpec) (spot : ℝ) :
    Except PriceError ℝ :=
  if ¬ (strLower o.kind = "call" ∨ strLower o.kind = "put") then
    .error .invalidContract
  else if strLower o.kind = "call" then
    .ok (max (spot - o.strike) 0)
  else
    .ok (max (o.strike - spot) 0)

/-- The pure intrinsic value used inside the pricer once the kind has
been checked valid: the value `OptionSpec.payoff` returns for a valid
kind. -/
noncomputable def payoffVal (o : OptionSpec) (spot : ℝ) : ℝ :=
  if strLower o.kind = "call" then max (spot - o.strike) 0
  else max (o.strike - spot) 0

theorem payoff_eq_of_validKind (o : OptionSpec) (spot : ℝ)
    (h : o.validKind) : o.payoff spot = .ok (payoffVal o spot) := by
  unfold OptionSpec.payoff payoffVal
  have h' : strLower o.kind = "call" ∨ strLower o.kind = "put" := h
  rw [if_neg (not_not_intro h')]
  by_cases hc : strLower o.kind = "call" <;> simp [hc]

/-- Embedding of `_up_down`: `u = exp(volatility * sqrt(dt))`, `d = 1/u`. -/
noncomputable def _up_down (volatility dt : ℝ) : ℝ × ℝ :=
  let u := Real.exp (volatility * Real.sqrt dt)
  (u, 1 / u)

/-- Embedding of `_risk_neutral_prob`.  Python raises
`ZeroDivisionError` when `u == d` (the division `(g - d) / (u - d)` by
zero), and `ValueError` ("Risk-neutral probability outside [0, 1]")
when `not 0.0 <= p <= 1.0`; otherwise it returns `p`. -/
noncomputable def _risk_neutral_prob (rate dividend_yield dt u d : ℝ) :
    Except PriceError ℝ :=
  let discounted_growth := Real.exp ((rate - dividend_yield) * dt)
  if u = d then .error .zeroDivisionError
  else
    let p := (discounted_growth - d) / (u - d)
    if ¬ (0 ≤ p ∧ p ≤ 1) then .error .invalidRiskNeutralProbability
    else .ok p

/-- Terminal option values of `price_option`: intrinsic payoff at the
terminal underlying prices `spot * u^j * d^(steps-j)`, `j = 0..steps`. -/
noncomputable def terminalRow (o : OptionSpec) (spot u d : ℝ) (steps : ℕ) :
    List ℝ :=
  (List.range (steps + 1)).map fun j =>
    payoffVal o (spot * u ^ j * d ^ (steps - j))

/-- One iteration of the backward-induction loop body of `price_option`
at lattice step `step`: node `j` takes
`discount * (p * values[j+1] + (1-p) * values[j])`, and an American
contract additionally compares with the intrinsic exercise value at
`spot * u^j * d^(step-j)`. -/
noncomputable def stepBack (o : OptionSpec) (spot u d p discount : ℝ)
    (step : ℕ) (values : List ℝ) : List ℝ :=
  (List.range (step + 1)).map fun j =>
    let cont := discount *
      (p * values.getD (j + 1) 0 + (1 - p) * values.getD j 0)
    if o.american then
      max cont (payoffVal o (spot * u ^ j * d ^ (step - j)))
    else cont

/-- The backward-induction loop of `price_option`
(`for step in range(steps - 1, -1, -1)`): with `n + 1` iterations left
the current iteration uses `step = n`; each new row is appended to the
tree accumulator, and the final row plus the accumulated tree are
returned. -/
noncomputable def inductLoop (o : OptionSpec) (spot u d p discount : ℝ) :
    ℕ → List ℝ → List (List ℝ) → List ℝ × List (List ℝ)
  | 0, values, tree => (values, tree)
  | n + 1, values, tree =>
    let next := stepBack o spot u d p discount n values
    inductLoop o spot u d p discount n next (tree ++ [next])

/-- Embedding of `price_option`: validates the step count, computes
`dt` (with `math.sqrt` raising on a negative `dt`, i.e. negative
maturity), the up/down factors, the risk-neutral probability, then the
terminal payoffs (where an invalid kind raises) and the backward
induction; returns the root value and the tree with the root row
first (`tree.reverse()`). -/
noncomputable def price_option (model : ModelParams) (o : OptionSpec)
    (steps : ℕ) : Except PriceError BinomialResult :=
  if steps = 0 then .error .invalidStepCount
  else
    let dt := o.maturity / (steps : ℝ)
    if dt < 0 then .error .mathDomainError
    else
      let ud := _up_down model.volatility dt
      match _risk_neutral_prob model.rate o.dividend_yield dt ud.1 ud.2 with
      | .error e => .error e
      | .ok p =>
        if o.validKind then
          let discount := Real.exp (-model.rate * dt)
          let values0 := terminalRow o model.spot ud.1 ud.2 steps
          let res :=
            inductLoop o model.spot ud.1 ud.2 p discount steps values0 [values0]
          .ok ⟨res.1.getD 0 0, res.2.reverse⟩
        else .error .invalidContract

/-- The derived quantity `dt = maturity / steps` of `price_option`. -/
noncomputable def latticeDt (o : OptionSpec) (steps : ℕ) : ℝ :=
  o.maturity / (steps : ℝ)

/-- The up factor `u = exp(volatility * sqrt(dt))` of the lattice. -/
noncomputable def latticeU (model : ModelParams) (o : OptionSpec)
    (steps : ℕ) : ℝ :=
  Real.exp (model.volatility * Real.sqrt (latticeDt o steps))

/-- The down factor `d = 1/u` of the lattice. -/
noncomputable def latticeD (model : ModelParams) (o : OptionSpec)
    (steps : ℕ) : ℝ :=
  1 / latticeU model o steps

/-- The risk-neutral up-probability
`p = (exp((rate - dividend_yield) * dt) - d) / (u - d)` of the lattice. -/
noncomputable def latticeP (model : ModelParams) (o : OptionSpec)
    (steps : ℕ) : ℝ :=
  (Real.exp ((model.rate - o.dividend_yield) * latticeDt o steps) -
      latticeD model o steps) /
    (latticeU model o steps - latticeD model o steps)

/-- The per-step discount factor `exp(-rate * dt)` of the lattice. -/
noncomputable def latticeDiscount (model : ModelParams) (o : OptionSpec)
    (steps : ℕ) : ℝ :=
  Real.exp (-model.rate * latticeDt o steps)

/-- The conditions under which `price_option` succeeds: positive step
count, non-negative `dt`, distinct up/down factors (no division by
zero), risk-neutral probability in `[0, 1]`, and a valid option kind. -/
def latticeOK (model : ModelParams) (o : OptionSpec) (steps : ℕ) : Prop :=
  steps ≠ 0 ∧ 0 ≤ latticeDt o steps ∧
    latticeU model o steps ≠ latticeD model o steps ∧
    (0 ≤ latticeP model o steps ∧ latticeP model o steps ≤ 1) ∧
    o.validKind

/-- Row `m` levels above the terminal row of the lattice: `rowAt 0` is
the terminal row (lattice step `steps`), and `rowAt (m+1)` (lattice step
`steps - m - 1`) is obtained from `rowAt m` by one backward-induction
step. -/
noncomputable def rowAt (o : OptionSpec) (spot u d p discount : ℝ)
    (steps : ℕ) : ℕ → List ℝ
  | 0 => terminalRow o spot u d steps
  | m + 1 =>
    stepBack o spot u d p discount (steps - (m + 1))
      (rowAt o spot u d p discount steps m)

theorem inductLoop_eq (o : OptionSpec) (spot u d p discount : ℝ)
    (steps : ℕ) :
    ∀ i, i ≤ steps → ∀ acc,
      inductLoop o spot u d p discount i
          (rowAt o spot u d p discount steps (steps - i)) acc
        = (rowAt o spot u d p discount steps steps,
           acc ++ (List.range i).map
             (fun t => rowAt o spot u d p discount steps (steps - i + (t + 1)))) := by
  intro i
  induction i with
  | zero => intro _ acc; simp [inductLoop]
  | succ i ih =>
    intro h acc
    have hrow : stepBack o spot u d p discount i
        (rowAt o spot u d p discount steps (steps - (i + 1)))
        = rowAt o spot u d p discount steps (steps - i) := by
      have h1 : steps - i = (steps - (i + 1)) + 1 := by omega
      rw [h1, rowAt]
      have h2 : steps - (steps - (i + 1) + 1) = i := by omega
      rw [h2]
    have hstep : inductLoop o spot u d p discount (i + 1)
        (rowAt o spot u d p discount steps (steps - (i + 1))) acc
        = inductLoop o spot u d p discount i
            (rowAt o spot u d p discount steps (steps - i))
            (acc ++ [rowAt o spot u d p discount steps (steps - i)]) := by
      rw [inductLoop, hrow]
    rw [hstep, ih (by omega) _, List.append_assoc]
    refine congrArg _ (congrArg _ ?_)
    rw [List.range_succ_eq_map, List.map_cons, List.map_map,
        List.singleton_append]
    have hhead : steps - (i + 1) + (0 + 1) = steps - i := by omega
    rw [hhead]
    refine congrArg _ (List.map_congr_left fun t _ => ?_)
    simp only [Function.comp]
    congr 1
    omega

theorem price_option_eq (model : ModelParams) (o : OptionSpec) (steps : ℕ)
    (h : latticeOK model o steps) :
    price_option model o steps
      = .ok ⟨(rowAt o model.spot (latticeU model o steps)
                (latticeD model o steps) (latticeP model o steps)
                (latticeDiscount model o steps) steps steps).getD 0 0,
             ((List.range (steps + 1)).map
                (rowAt o model.spot (latticeU model o steps)
                  (latticeD model o steps) (latticeP model o steps)
                  (latticeDiscount model o steps) steps)).reverse⟩ := by
  obtain ⟨h1, h2, h3, h4, h5⟩ := h
  have hU : (_up_down model.volatility (o.maturity / (steps : ℝ))).1
      = latticeU model o steps := rfl
  have hD : (_up_down model.volatility (o.maturity / (steps : ℝ))).2
      = latticeD model o steps := rfl
  have hprob : _risk_neutral_prob model.rate o.dividend_yield
      (o.maturity / (steps : ℝ))
      (_up_down model.volatility (o.maturity / (steps : ℝ))).1
      (_up_down model.volatility (o.maturity / (steps : ℝ))).2
      = .ok (latticeP model o steps) := by
    rw [hU, hD]
    unfold _risk_neutral_prob
    rw [if_neg h3]
    show (if ¬ (0 ≤ latticeP model o steps ∧ latticeP model o steps ≤ 1)
        then Except.error PriceError.invalidRiskNeutralProbability
        else Except.ok (latticeP model o steps))
      = Except.ok (latticeP model o steps)
    rw [if_neg (not_not_intro h4)]
  have hdt : ¬ (o.maturity / (steps : ℝ) < 0) := not_lt.mpr h2
  have hloop := inductLoop_eq o model.spot (latticeU model o steps)
    (latticeD model o steps) (latticeP model o steps)
    (latticeDiscount model o steps) steps steps le_rfl
    [terminalRow o model.spot (latticeU model o steps)
      (latticeD model o steps) steps]
  rw [Nat.sub_self] at hloop
  have hrow0 : rowAt o model.spot (latticeU model o steps)
      (latticeD model o steps) (latticeP model o steps)
      (latticeDiscount model o steps) steps 0
      = terminalRow o model.spot (latticeU model o steps)
          (latticeD model o steps) steps := rfl
  rw [hrow0] at hloop
  have hdisc : Real.exp (-model.rate * (o.maturity / (steps : ℝ)))
      = latticeDiscount model o steps := rfl
  unfold price_option
  rw [if_neg h1]
  simp only []
  rw [if_neg hdt, hprob]
  simp only []
  rw [if_pos h5, hdisc, hU, hD, hloop]
  refine congrArg _ ?_
  refine congrArg₂ _ rfl (congrArg _ ?_)
  rw [List.range_succ_eq_map, List.map_cons, List.map_map, ← hrow0,
      List.singleton_append]
  refine congrArg _ (List.map_congr_left fun t _ => ?_)
  simp [Function.comp]

/-- The tree of a successful `price_option` run, read root-first: entry
`k` is the lattice row at step `k`, i.e. `rowAt (steps - k)`. -/
theorem price_option_tree_getD (model : ModelParams) (o : OptionSpec)
    (steps : ℕ) (h : latticeOK model o steps) {r : BinomialResult}
    (hr : price_option model o steps = .ok r) {k : ℕ} (hk : k ≤ steps) :
    r.tree.getD k [] = rowAt o model.spot (latticeU model o steps)
      (latticeD model o steps) (latticeP model o steps)
      (latticeDiscount model o steps) steps (steps - k) := by
  rw [price_option_eq model o steps h] at hr
  cases hr
  rw [getD_reverse_map_range _ _ (by omega)]
  congr 1

/-- C2: for every market model, contract with valid kind and positive
step count (and lattice inputs on which pricing succeeds,
i.e. `latticeOK`), `price_option` computes the lattice by backward
induction: the terminal row holds the payoffs at
`spot * u^j * d^(steps-j)`; each node `j` at step `k < steps` equals
`exp(-rate*dt) * (p * value[j+1] + (1-p) * value[j])` over the next
step's values, an American contract taking the maximum with the
intrinsic payoff at `spot * u^j * d^(k-j)` and a European contract the
continuation value; and the returned price is the root node's value. -/
theorem lattice_backward_induction (model : ModelParams) (o : OptionSpec)
    (steps : ℕ) (h : latticeOK model o steps) :
    ∃ r, price_option model o steps = .ok r ∧
      r.tree.length = steps + 1 ∧
      (∀ j, j ≤ steps →
        (r.tree.getD steps []).getD j 0
          = payoffVal o (model.spot * latticeU model o steps ^ j *
              latticeD model o steps ^ (steps - j))) ∧
      (∀ k j, k < steps → j ≤ k →
        (r.tree.getD k []).getD j 0
          = (let cont := latticeDiscount model o steps *
                (latticeP model o steps *
                    (r.tree.getD (k + 1) []).getD (j + 1) 0 +
                  (1 - latticeP model o steps) *
                    (r.tree.getD (k + 1) []).getD j 0)
             if o.american then
               max cont (payoffVal o (model.spot * latticeU model o steps ^ j *
                 latticeD model o steps ^ (k - j)))
             else cont)) ∧
      r.price = (r.tree.getD 0 []).getD 0 0 := by
  refine ⟨_, price_option_eq model o steps h, ?_, ?_, ?_, ?_⟩
  · simp
  · intro j hj
    rw [price_option_tree_getD model o steps h (price_option_eq model o steps h)
      le_rfl]
    rw [Nat.sub_self]
    show (terminalRow o model.spot (latticeU model o steps)
      (latticeD model o steps) steps).getD j 0 = _
    unfold terminalRow
    rw [getD_map_range _ _ (by omega)]
  · intro k j hk hj
    rw [price_option_tree_getD model o steps h (price_option_eq model o steps h)
      (le_of_lt hk)]
    rw [price_option_tree_getD model o steps h (price_option_eq model o steps h)
      (by omega : k + 1 ≤ steps)]
    have hsk : steps - k = (steps - (k + 1)) + 1 := by omega
    rw [hsk, rowAt]
    have hstep : steps - (steps - (k + 1) + 1) = k := by omega
    rw [hstep]
    unfold stepBack
    rw [getD_map_range _ _ (by omega)]
  · rw [price_option_tree_getD model o steps h (price_option_eq model o steps h)
      (Nat.zero_le steps), Nat.sub_zero]

/-- C3: `_risk_neutral_prob` fails with the
`InvalidRiskNeutralProbability` error exactly when the derived
up-probability `p = (exp((rate - dividend_yield)*dt) - d) / (u - d)`
lies strictly outside `[0, 1]`; and when `p` equals `0` or `1` exactly
(and the division is defined, `u ≠ d`), the probability is accepted and
returned, not rejected. -/
theorem risk_neutral_prob_error_iff (rate dividend_yield dt u d : ℝ) :
    (_risk_neutral_prob rate dividend_yield dt u d
        = .error .invalidRiskNeutralProbability
      ↔ ¬ (0 ≤ (Real.exp ((rate - dividend_yield) * dt) - d) / (u - d) ∧
            (Real.exp ((rate - dividend_yield) * dt) - d) / (u - d) ≤ 1)) ∧
    (u ≠ d →
      ((Real.exp ((rate - dividend_yield) * dt) - d) / (u - d) = 0 ∨
        (Real.exp ((rate - dividend_yield) * dt) - d) / (u - d) = 1) →
      _risk_neutral_prob rate dividend_yield dt u d
        = .ok ((Real.exp ((rate - dividend_yield) * dt) - d) / (u - d))) := by
  by_cases hud : u = d
  · subst hud
    constructor
    · simp [_risk_neutral_prob, sub_self, div_zero]
    · intro hne
      exact absurd rfl hne
  · constructor
    · unfold _risk_neutral_prob
      rw [if_neg hud]
      by_cases hp : 0 ≤ (Real.exp ((rate - dividend_yield) * dt) - d) / (u - d) ∧
          (Real.exp ((rate - dividend_yield) * dt) - d) / (u - d) ≤ 1
      · rw [if_neg (not_not_intro hp)]
        simp [hp]
      · rw [if_pos hp]
        simp [hp]
    · intro _ hbound
      unfold _risk_neutral_prob
      rw [if_neg hud]
      have hp : 0 ≤ (Real.exp ((rate - dividend_yield) * dt) - d) / (u - d) ∧
          (Real.exp ((rate - dividend_yield) * dt) - d) / (u - d) ≤ 1 := by
        rcases hbound with h0 | h1
        · rw [h0]; norm_num
        · rw [h1]; norm_num
      rw [if_neg (not_not_intro hp)]

/-- Witness for C3: with `rate = dividend_yield = dt = 0`, `u = 1`,
`d = 0` the derived probability is exactly `1` and is accepted. -/
theorem risk_neutral_prob_boundary_witness :
    _risk_neutral_prob 0 0 0 1 0 = .ok ((Real.exp ((0 - (0:ℝ)) * 0) - 0) / (1 - 0)) :=
  (risk_neutral_prob_error_iff 0 0 0 1 0).2 (by norm_num)
    (Or.inr (by simp))

/-- Concrete lattice inputs on which `price_option` succeeds:
`spot = 100`, `rate = 0`, `volatility = 1`, a call with strike `100`
and maturity `1`, one step, for either exercise style. -/
theorem latticeOK_example (b : Bool) :
    latticeOK ⟨100, 0, 1⟩ ⟨"call", 100, 1, b, 0⟩ 1 := by
  have hdt : latticeDt ⟨"call", 100, 1, b, 0⟩ 1 = 1 := by
    simp [latticeDt]
  have hu : latticeU ⟨100, 0, 1⟩ ⟨"call", 100, 1, b, 0⟩ 1 = Real.exp 1 := by
    rw [latticeU, hdt]
    norm_num
  have hd : latticeD ⟨100, 0, 1⟩ ⟨"call", 100, 1, b, 0⟩ 1 = (Real.exp 1)⁻¹ := by
    rw [latticeD, hu, one_div]
  have hexp1 : (1 : ℝ) < Real.exp 1 := Real.one_lt_exp_iff.mpr one_pos
  have hinv : (Real.exp 1)⁻¹ < 1 := inv_lt_one_of_one_lt₀ hexp1
  have hden : 0 < Real.exp 1 - (Real.exp 1)⁻¹ := by linarith
  have hp : latticeP ⟨100, 0, 1⟩ ⟨"call", 100, 1, b, 0⟩ 1
      = (1 - (Real.exp 1)⁻¹) / (Real.exp 1 - (Real.exp 1)⁻¹) := by
    rw [latticeP, hdt, hu, hd]
    norm_num
  refine ⟨one_ne_zero, by rw [hdt]; norm_num, ?_, ⟨?_, ?_⟩, Or.inl ((by decide : strLower "call" = "call"))⟩
  · rw [hu, hd]
    intro hcontra
    nlinarith
  · rw [hp]
    apply div_nonneg _ hden.le
    linarith
  · rw [hp]
    rw [div_le_one hden]
    linarith

/-- Witness for C2: a European call, `spot = strike = 100`, `rate = 0`,
`volatility = 1`, maturity `1`, one lattice step. -/
theorem lattice_backward_induction_witness :
    ∃ r, price_option ⟨100, 0, 1⟩ ⟨"call", 100, 1, false, 0⟩ 1 = .ok r ∧
      r.tree.length = 1 + 1 ∧
      (∀ j, j ≤ 1 →
        (r.tree.getD 1 []).getD j 0
          = payoffVal ⟨"call", 100, 1, false, 0⟩
              (100 * latticeU ⟨100, 0, 1⟩ ⟨"call", 100, 1, false, 0⟩ 1 ^ j *
                latticeD ⟨100, 0, 1⟩ ⟨"call", 100, 1, false, 0⟩ 1 ^ (1 - j))) ∧
      (∀ k j, k < 1 → j ≤ k →
        (r.tree.getD k []).getD j 0
          = (let cont := latticeDiscount ⟨100, 0, 1⟩ ⟨"call", 100, 1, false, 0⟩ 1 *
                (latticeP ⟨100, 0, 1⟩ ⟨"call", 100, 1, false, 0⟩ 1 *
                    (r.tree.getD (k + 1) []).getD (j + 1) 0 +
                  (1 - latticeP ⟨100, 0, 1⟩ ⟨"call", 100, 1, false, 0⟩ 1) *
                    (r.tree.getD (k + 1) []).getD j 0)
             if (false : Bool) then
               max cont (payoffVal ⟨"call", 100, 1, false, 0⟩
                 (100 * latticeU ⟨100, 0, 1⟩ ⟨"call", 100, 1, false, 0⟩ 1 ^ j *
                   latticeD ⟨100, 0, 1⟩ ⟨"call", 100, 1, false, 0⟩ 1 ^ (k - j)))
             else cont)) ∧
      r.price = (r.tree.getD 0 []).getD 0 0 :=
  lattice_backward_induction ⟨100, 0, 1⟩ ⟨"call", 100, 1, false, 0⟩ 1
    (latticeOK_example false)

/-- Rows of the American lattice dominate the rows of the otherwise
identical European lattice: the terminal rows agree, and each backward
step preserves the domination because the American node takes
`max(continuation, exercise) ≥ continuation` and the continuation
operator is monotone when `0 ≤ p ≤ 1` and `0 ≤ discount`. -/
theorem rowAt_mono (o : OptionSpec) (spot u d p discount : ℝ)
    (hp0 : 0 ≤ p) (hp1 : p ≤ 1) (hdisc : 0 ≤ discount) (steps : ℕ) :
    ∀ m j,
      (rowAt { o with american := false } spot u d p discount steps m).getD j 0
        ≤ (rowAt { o with american := true } spot u d p discount steps m).getD j 0 := by
  have h1p : (0 : ℝ) ≤ 1 - p := by linarith
  intro m
  induction m with
  | zero => intro j; exact le_of_eq rfl
  | succ m ih =>
    intro j
    by_cases hj : j < steps - (m + 1) + 1
    · rw [rowAt, rowAt]
      unfold stepBack
      rw [getD_map_range _ _ hj, getD_map_range _ _ hj]
      show discount *
          (p * (rowAt { o with american := false } spot u d p discount steps m).getD (j + 1) 0 +
            (1 - p) * (rowAt { o with american := false } spot u d p discount steps m).getD j 0)
        ≤ max
          (discount *
            (p * (rowAt { o with american := true } spot u d p discount steps m).getD (j + 1) 0 +
              (1 - p) * (rowAt { o with american := true } spot u d p discount steps m).getD j 0))
          (payoffVal { o with american := true }
            (spot * u ^ j * d ^ (steps - (m + 1) - j)))
      refine le_trans ?_ (le_max_left _ _)
      exact mul_le_mul_of_nonneg_left
        (add_le_add (mul_le_mul_of_nonneg_left (ih (j + 1)) hp0)
          (mul_le_mul_of_nonneg_left (ih j) h1p)) hdisc
    · rw [rowAt, rowAt]
      unfold stepBack
      rw [List.getD_eq_default _ _ (by simp; omega),
        List.getD_eq_default _ _ (by simp; omega)]

/-- C4: for every market model, strike, maturity, kind and positive
step count on which pricing succeeds, the lattice price of the American
variant of a contract is at least the price of the otherwise identical
European variant. -/
theorem american_ge_european (model : ModelParams) (o : OptionSpec)
    (steps : ℕ) (h : latticeOK model o steps) :
    ∃ ra re,
      price_option model { o with american := true } steps = .ok ra ∧
      price_option model { o with american := false } steps = .ok re ∧
      re.price ≤ ra.price := by
  have hA : latticeOK model { o with american := true } steps := h
  have hE : latticeOK model { o with american := false } steps := h
  obtain ⟨h1, h2, h3, ⟨hp0, hp1⟩, h5⟩ := h
  refine ⟨_, _, price_option_eq _ _ _ hA, price_option_eq _ _ _ hE, ?_⟩
  exact rowAt_mono o model.spot (latticeU model o steps)
    (latticeD model o steps) (latticeP model o steps)
    (latticeDiscount model o steps) hp0 hp1
    (Real.exp_pos _).le steps steps 0

/-- Witness for C4 at the same concrete market and contract as the C2
witness. -/
theorem american_ge_european_witness :
    ∃ ra re,
      price_option ⟨100, 0, 1⟩ ⟨"call", 100, 1, true, 0⟩ 1 = .ok ra ∧
      price_option ⟨100, 0, 1⟩ ⟨"call", 100, 1, false, 0⟩ 1 = .ok re ∧
      re.price ≤ ra.price :=
  american_ge_european ⟨100, 0, 1⟩ ⟨"call", 100, 1, false, 0⟩ 1
    (latticeOK_example false)

/-- C8, counterexample: the dataclass constructor performs no
validation, so a contract whose kind is neither call nor put is
constructed without error, and its `payoff` then raises the
invalid-kind `ValueError` — contradicting the claim that an invalid
kind is a construction-time error and that `payoff` never raises an
invalid-kind error once a contract is constructed. -/
theorem optionspec_lazy_validation_counterexample :
    (OptionSpec.mk "straddle" 100 1 false 0).payoff 50
      = .error .invalidContract := by
  unfold OptionSpec.payoff
  rw [if_pos (by decide :
    ¬ (strLower "straddle" = "call" ∨ strLower "straddle" = "put"))]

theorem payoff_invalid_iff (o : OptionSpec) (s : ℝ) :
    o.payoff s = .error .invalidContract ↔ ¬ o.validKind := by
  unfold OptionSpec.payoff OptionSpec.validKind
  by_cases hv : strLower o.kind = "call" ∨ strLower o.kind = "put"
  · rw [if_neg (not_not_intro hv)]
    constructor
    · intro hcontra
      by_cases hc : strLower o.kind = "call"
      · rw [if_pos hc] at hcontra; exact absurd hcontra (by simp)
      · rw [if_neg hc] at hcontra; exact absurd hcontra (by simp)
    · intro hn; exact absurd hv hn
  · rw [if_pos hv]
    simp [hv]

/-- C8, amended: construction never fails (the dataclass performs no
validation), and instead `payoff` raises the invalid-kind error exactly
when the lower-cased kind is neither call nor put — uniformly in the
spot price. -/
theorem payoff_error_iff (o : OptionSpec) (s : ℝ) :
    o.payoff s = .error .invalidContract ↔ ¬ o.validKind :=
  payoff_invalid_iff o s

/-- Witness for the amended C8: a freshly constructed contract of kind
"swap" raises the invalid-kind error at payoff time. -/
theorem payoff_error_iff_witness :
    (OptionSpec.mk "swap" 1 1 false 0).payoff 0 = .error .invalidContract :=
  (payoff_error_iff ⟨"swap", 1, 1, false, 0⟩ 0).mpr (by decide)

/-- C10: `OptionSpec.payoff` treats the kind string case-insensitively:
it raises the invalid-kind error exactly when the lower-cased kind is
neither "call" nor "put"; a lower-cased "call" yields
`max(spot - strike, 0)` and a lower-cased "put" yields
`max(strike - spot, 0)`. -/
theorem payoff_case_insensitive (o : OptionSpec) (s : ℝ) :
    (o.payoff s = .error .invalidContract
      ↔ ¬ (strLower o.kind = "call" ∨ strLower o.kind = "put")) ∧
    (strLower o.kind = "call" → o.payoff s = .ok (max (s - o.strike) 0)) ∧
    (strLower o.kind = "put" → o.payoff s = .ok (max (o.strike - s) 0)) := by
  refine ⟨(payoff_invalid_iff o s).trans (by rfl), ?_, ?_⟩
  · intro hc
    unfold OptionSpec.payoff
    rw [if_neg (not_not_intro (Or.inl hc)), if_pos hc]
  · intro hp
    unfold OptionSpec.payoff
    rw [if_neg (not_not_intro (Or.inr hp))]
    by_cases hc : strLower o.kind = "call"
    · rw [hc] at hp; exact absurd hp (by decide)
    · rw [if_neg hc]

/-- Witness for C10: the upper-case kind "CALL" is accepted and priced
as a call. -/
theorem payoff_case_insensitive_witness :
    (OptionSpec.mk "CALL" 100 1 false 0).payoff 150
      = .ok (max ((150 : ℝ) - 100) 0) :=
  (payoff_case_insensitive ⟨"CALL", 100, 1, false, 0⟩ 150).2.1 (by decide)

end Binomial

namespace MonteCarlo

/-- Errors raised by `monte_carlo_price`: non-positive path count,
non-positive step count, and the `ValueError` raised by
`math.sqrt(dt)` when `dt = maturity/steps` is negative. -/
inductive MCError where
  | invalidPathCount
  | invalidStepCount
  | mathDomainError
  deriving DecidableEq, Repr

/-- Embedding of the frozen dataclass `MonteCarloSpec` of
`monte_carlo_pricing.py`. -/
structure MonteCarloSpec where
  spot : ℝ
  rate : ℝ
  volatility : ℝ
  maturity : ℝ
  dividend_yield : ℝ := 0

/-- Embedding of the frozen dataclass `MonteCarloResult`. -/
structure MonteCarloResult where
  price : ℝ
  standard_error : ℝ
  paths : ℕ

/-- One step of the simulated geometric Brownian motion path:
`price * exp(drift + vol_step * z)` (the loop body
`price *= math.exp(drift + vol_step * z)`). -/
noncomputable def gbmStep (drift vol_step price z : ℝ) : ℝ :=
  price * Real.exp (drift + vol_step * z)

/-- The standard-normal draws consumed by path `i`: the generator
`rng.gauss(0.0, 1.0)` is called `steps` times per path, in path order,
so path `i` consumes the draws at stream positions
`i*steps, ..., i*steps + steps - 1`. -/
def pathDraws (Z : ℕ → ℝ) (steps i : ℕ) : List ℝ :=
  (List.range steps).map fun k => Z (i * steps + k)

/-- The list `path_values` accumulated by the inner loop of
`monte_carlo_price`: the initial price followed by each step's price. -/
noncomputable def pathValues (spot drift vol_step : ℝ) (zs : List ℝ) :
    List ℝ :=
  zs.scanl (gbmStep drift vol_step) spot

/-- Embedding of `statistics.fmean`: the arithmetic mean. -/
noncomputable def fmean (xs : List ℝ) : ℝ := xs.sum / xs.length

/-- Embedding of `statistics.pstdev`: the population standard
deviation, the square root of the mean squared deviation from the
mean. -/
noncomputable def pstdev (xs : List ℝ) : ℝ :=
  Real.sqrt (((xs.map fun x => (x - fmean xs) ^ 2).sum) / xs.length)

/-- The discounted payoff of path `i` as computed inside the path loop
of `monte_carlo_price`: the single discount factor
`exp(-rate * maturity)` times the payoff evaluated at the final price
(the folded GBM steps) and the full path value list. -/
noncomputable def discountedPayoff (spec : MonteCarloSpec)
    (payoff : ℝ → List ℝ → ℝ) (steps : ℕ) (Z : ℕ → ℝ) (i : ℕ) : ℝ :=
  let dt := spec.maturity / (steps : ℝ)
  let drift := (spec.rate - spec.dividend_yield - 0.5 * spec.volatility ^ 2) * dt
  let vol_step := spec.volatility * Real.sqrt dt
  let zs := pathDraws Z steps i
  Real.exp (-spec.rate * spec.maturity) *
    payoff (zs.foldl (gbmStep drift vol_step) spec.spot)
      (pathValues spec.spot drift vol_step zs)

/-- Embedding of `monte_carlo_price`: validates path and step counts,
computes `dt = maturity/steps` (with `math.sqrt(dt)` in the `vol_step`
assignment raising `ValueError` for a negative `dt`, before any path is
simulated), simulates `paths` GBM paths consuming `steps`
standard-normal draws each (the draw stream `Z` stands for the seeded
`random.Random` generator's `gauss` outputs in consumption order),
discounts each path's payoff by `exp(-rate * maturity)`, and aggregates
the mean and (for more than one path) the population standard deviation
divided by `sqrt(paths)`. -/
noncomputable def monte_carlo_price (spec : MonteCarloSpec)
    (payoff : ℝ → List ℝ → ℝ) (paths steps : ℕ) (Z : ℕ → ℝ) :
    Except MCError MonteCarloResult :=
  if paths = 0 then .error .invalidPathCount
  else if steps = 0 then .error .invalidStepCount
  else if spec.maturity / (steps : ℝ) < 0 then .error .mathDomainError
  else
    let discounted_payoffs :=
      (List.range paths).map (discountedPayoff spec payoff steps Z)
    let mean_payoff := fmean discounted_payoffs
    let standard_error :=
      if 1 < paths then pstdev discounted_payoffs / Real.sqrt (paths : ℝ)
      else 0
    .ok ⟨mean_payoff, standard_error, paths⟩

/-- C5: on the inputs where `monte_carlo_price` succeeds (positive
path and step counts and a non-negative maturity, so that
`math.sqrt(dt)` is defined), the returned price is the
arithmetic mean over all paths of `exp(-rate*maturity)` times the
path's payoff (one discount factor over the full maturity), and the
returned standard error is the population standard deviation of the
discounted payoffs divided by `sqrt(paths)`, and exactly `0` when
`paths = 1`. -/
theorem monte_carlo_aggregation (spec : MonteCarloSpec)
    (payoff : ℝ → List ℝ → ℝ) (paths steps : ℕ) (Z : ℕ → ℝ)
    (hpaths : 0 < paths) (hsteps : 0 < steps) (hmat : 0 ≤ spec.maturity) :
    ∃ r, monte_carlo_price spec payoff paths steps Z = .ok r ∧
      r.price = (∑ i in Finset.range paths,
          discountedPayoff spec payoff steps Z i) / (paths : ℝ) ∧
      r.standard_error =
        (if paths = 1 then 0
         else Real.sqrt ((∑ i in Finset.range paths,
               (discountedPayoff spec payoff steps Z i - r.price) ^ 2) /
             (paths : ℝ)) / Real.sqrt (paths : ℝ)) ∧
      r.paths = paths := by
  have hdt : ¬ (spec.maturity / (steps : ℝ) < 0) :=
    not_lt.mpr (div_nonneg hmat (Nat.cast_nonneg steps))
  unfold monte_carlo_price
  rw [if_neg (Nat.pos_iff_ne_zero.mp hpaths),
    if_neg (Nat.pos_iff_ne_zero.mp hsteps), if_neg hdt]
  have hmean : fmean ((List.range paths).map
      (discountedPayoff spec payoff steps Z))
      = (∑ i in Finset.range paths,
          discountedPayoff spec payoff steps Z i) / (paths : ℝ) := by
    unfold fmean
    rw [list_map_range_sum]
    simp
  refine ⟨_, rfl, hmean, ?_, rfl⟩
  show (if 1 < paths then
      pstdev ((List.range paths).map (discountedPayoff spec payoff steps Z)) /
        Real.sqrt (paths : ℝ)
    else 0) = _
  rcases Nat.lt_or_ge 1 paths with hgt | hle
  · rw [if_pos hgt, if_neg (by omega)]
    unfold pstdev
    rw [List.map_map, hmean]
    rw [show ((fun x => (x - (∑ i in Finset.range paths,
        discountedPayoff spec payoff steps Z i) / (paths : ℝ)) ^ 2) ∘
        discountedPayoff spec payoff steps Z)
      = fun i => (discountedPayoff spec payoff steps Z i -
          (∑ i in Finset.range paths,
            discountedPayoff spec payoff steps Z i) / (paths : ℝ)) ^ 2
      from rfl]
    rw [list_map_range_sum]
    simp
  · have h1 : paths = 1 := by omega
    rw [if_neg (by omega), if_pos h1]

/-- Witness for C5: one path, one step, zero draws, payoff returning
the terminal price. -/
theorem monte_carlo_aggregation_witness :
    ∃ r, monte_carlo_price ⟨100, 0, 0, 1, 0⟩ (fun s _ => s) 1 1 (fun _ => 0)
        = .ok r ∧
      r.price = (∑ i in Finset.range 1,
          discountedPayoff ⟨100, 0, 0, 1, 0⟩ (fun s _ => s) 1 (fun _ => 0) i) /
        ((1 : ℕ) : ℝ) ∧
      r.standard_error =
        (if (1 : ℕ) = 1 then 0
         else Real.sqrt ((∑ i in Finset.range 1,
               (discountedPayoff ⟨100, 0, 0, 1, 0⟩ (fun s _ => s) 1
                   (fun _ => 0) i - r.price) ^ 2) /
             ((1 : ℕ) : ℝ)) / Real.sqrt ((1 : ℕ) : ℝ)) ∧
      r.paths = 1 :=
  monte_carlo_aggregation ⟨100, 0, 0, 1, 0⟩ (fun s _ => s) 1 1 (fun _ => 0)
    (by decide) (by decide) (by norm_num)

/-- C6: on the inputs where `monte_carlo_price` succeeds (positive
counts, non-negative maturity), each simulated path starts at `spot`
and is built by `steps`
iterations of `price *= exp(drift*dt + vol_step*Z)` with
`drift = rate - dividend_yield - volatility^2/2`, `dt = maturity/steps`
and `vol_step = volatility*sqrt(dt)`, consuming one fresh draw per
step; and the payoff is invoked with the final price (the entry at
index `steps`) together with the full list of `steps + 1` prices. -/
theorem monte_carlo_path_construction (spec : MonteCarloSpec)
    (payoff : ℝ → List ℝ → ℝ) (paths steps : ℕ) (Z : ℕ → ℝ)
    (hpaths : 0 < paths) (hsteps : 0 < steps) (hmat : 0 ≤ spec.maturity) :
    ∃ r, monte_carlo_price spec payoff paths steps Z = .ok r ∧
      (∀ i, i < paths →
        (pathValues spec.spot
            ((spec.rate - spec.dividend_yield - 0.5 * spec.volatility ^ 2) *
              (spec.maturity / (steps : ℝ)))
            (spec.volatility * Real.sqrt (spec.maturity / (steps : ℝ)))
            (pathDraws Z steps i)).length = steps + 1 ∧
        (pathValues spec.spot
            ((spec.rate - spec.dividend_yield - 0.5 * spec.volatility ^ 2) *
              (spec.maturity / (steps : ℝ)))
            (spec.volatility * Real.sqrt (spec.maturity / (steps : ℝ)))
            (pathDraws Z steps i)).getD 0 0 = spec.spot ∧
        (∀ k, k < steps →
          (pathValues spec.spot
              ((spec.rate - spec.dividend_yield - 0.5 * spec.volatility ^ 2) *
                (spec.maturity / (steps : ℝ)))
              (spec.volatility * Real.sqrt (spec.maturity / (steps : ℝ)))
              (pathDraws Z steps i)).getD (k + 1) 0
            = (pathValues spec.spot
                ((spec.rate - spec.dividend_yield - 0.5 * spec.volatility ^ 2) *
                  (spec.maturity / (steps : ℝ)))
                (spec.volatility * Real.sqrt (spec.maturity / (steps : ℝ)))
                (pathDraws Z steps i)).getD k 0 *
              Real.exp
                ((spec.rate - spec.dividend_yield - 0.5 * spec.volatility ^ 2) *
                    (spec.maturity / (steps : ℝ)) +
                  spec.volatility * Real.sqrt (spec.maturity / (steps : ℝ)) *
                    Z (i * steps + k)))) ∧
      r.price = fmean ((List.range paths).map fun i =>
        Real.exp (-spec.rate * spec.maturity) *
          payoff ((pathValues spec.spot
              ((spec.rate - spec.dividend_yield - 0.5 * spec.volatility ^ 2) *
                (spec.maturity / (steps : ℝ)))
              (spec.volatility * Real.sqrt (spec.maturity / (steps : ℝ)))
              (pathDraws Z steps i)).getD steps 0)
            (pathValues spec.spot
              ((spec.rate - spec.dividend_yield - 0.5 * spec.volatility ^ 2) *
                (spec.maturity / (steps : ℝ)))
              (spec.volatility * Real.sqrt (spec.maturity / (steps : ℝ)))
              (pathDraws Z steps i))) := by
  have hlen : ∀ i, (pathDraws Z steps i).length = steps := by
    intro i; simp [pathDraws]
  have hdt : ¬ (spec.maturity / (steps : ℝ) < 0) :=
    not_lt.mpr (div_nonneg hmat (Nat.cast_nonneg steps))
  unfold monte_carlo_price
  rw [if_neg (Nat.pos_iff_ne_zero.mp hpaths),
    if_neg (Nat.pos_iff_ne_zero.mp hsteps), if_neg hdt]
  refine ⟨_, rfl, ?_, ?_⟩
  · intro i _
    refine ⟨by simp [pathValues, List.length_scanl, hlen], ?_, ?_⟩
    · exact getD_zero_scanl _ _ _
    · intro k hk
      have hrec := getD_succ_scanl
        (gbmStep
          ((spec.rate - spec.dividend_yield - 0.5 * spec.volatility ^ 2) *
            (spec.maturity / (steps : ℝ)))
          (spec.volatility * Real.sqrt (spec.maturity / (steps : ℝ))))
        (pathDraws Z steps i) spec.spot k (by rw [hlen]; exact hk)
      rw [show (pathDraws Z steps i).getD k 0 = Z (i * steps + k) from
        getD_map_range _ _ hk] at hrec
      exact hrec
  · show fmean ((List.range paths).map
        (discountedPayoff spec payoff steps Z)) = _
    refine congrArg _ (List.map_congr_left fun i _ => ?_)
    unfold discountedPayoff
    simp only []
    rw [foldl_eq_scanl_getD, hlen]
    rfl

/-- Witness for C6: two paths of two steps each, a constant draw
stream, payoff returning the terminal price. -/
theorem monte_carlo_path_construction_witness :
    ∃ r, monte_carlo_price ⟨100, 0, 1, 1, 0⟩ (fun s _ => s) 2 2 (fun _ => 1)
        = .ok r ∧
      (∀ i, i < 2 →
        (pathValues (100 : ℝ)
            (((0 : ℝ) - 0 - 0.5 * 1 ^ 2) * (1 / ((2 : ℕ) : ℝ)))
            (1 * Real.sqrt (1 / ((2 : ℕ) : ℝ)))
            (pathDraws (fun _ => 1) 2 i)).length = 2 + 1 ∧
        (pathValues (100 : ℝ)
            (((0 : ℝ) - 0 - 0.5 * 1 ^ 2) * (1 / ((2 : ℕ) : ℝ)))
            (1 * Real.sqrt (1 / ((2 : ℕ) : ℝ)))
            (pathDraws (fun _ => 1) 2 i)).getD 0 0 = 100 ∧
        (∀ k, k < 2 →
          (pathValues (100 : ℝ)
              (((0 : ℝ) - 0 - 0.5 * 1 ^ 2) * (1 / ((2 : ℕ) : ℝ)))
              (1 * Real.sqrt (1 / ((2 : ℕ) : ℝ)))
              (pathDraws (fun _ => 1) 2 i)).getD (k + 1) 0
            = (pathValues (100 : ℝ)
                (((0 : ℝ) - 0 - 0.5 * 1 ^ 2) * (1 / ((2 : ℕ) : ℝ)))
                (1 * Real.sqrt (1 / ((2 : ℕ) : ℝ)))
                (pathDraws (fun _ => 1) 2 i)).getD k 0 *
              Real.exp
                (((0 : ℝ) - 0 - 0.5 * 1 ^ 2) * (1 / ((2 : ℕ) : ℝ)) +
                  1 * Real.sqrt (1 / ((2 : ℕ) : ℝ)) *
                    (fun _ => (1 : ℝ)) (i * 2 + k)))) ∧
      r.price = fmean ((List.range 2).map fun i =>
        Real.exp (-(0 : ℝ) * 1) *
          (fun s _ => s) ((pathValues (100 : ℝ)
              (((0 : ℝ) - 0 - 0.5 * 1 ^ 2) * (1 / ((2 : ℕ) : ℝ)))
              (1 * Real.sqrt (1 / ((2 : ℕ) : ℝ)))
              (pathDraws (fun _ => 1) 2 i)).getD 2 0)
            (pathValues (100 : ℝ)
              (((0 : ℝ) - 0 - 0.5 * 1 ^ 2) * (1 / ((2 : ℕ) : ℝ)))
              (1 * Real.sqrt (1 / ((2 : ℕ) : ℝ)))
              (pathDraws (fun _ => 1) 2 i))) :=
  monte_carlo_path_construction ⟨100, 0, 1, 1, 0⟩ (fun s _ => s) 2 2
    (fun _ => 1) (by decide) (by decide) (by norm_num)

/-- C7: the Monte Carlo price is a pure function of the market inputs,
the payoff, the counts and the consumed pseudorandom draws: runs over
two draw streams that agree on the `paths * steps` consumed positions
(as two runs seeded identically do) return identical results — the
engine consults nothing else. -/
theorem monte_carlo_deterministic (spec : MonteCarloSpec)
    (payoff : ℝ → List ℝ → ℝ) (paths steps : ℕ) (Z₁ Z₂ : ℕ → ℝ)
    (hagree : ∀ n, n < paths * steps → Z₁ n = Z₂ n) :
    monte_carlo_price spec payoff paths steps Z₁
      = monte_carlo_price spec payoff paths steps Z₂ := by
  by_cases hpaths : paths = 0
  · unfold monte_carlo_price
    rw [if_pos hpaths, if_pos hpaths]
  by_cases hsteps : steps = 0
  · unfold monte_carlo_price
    rw [if_neg hpaths, if_neg hpaths, if_pos hsteps, if_pos hsteps]
  have hdraws : ∀ i, i < paths → pathDraws Z₁ steps i = pathDraws Z₂ steps i := by
    intro i hi
    unfold pathDraws
    refine List.map_congr_left fun k hk => ?_
    have hk' : k < steps := List.mem_range.mp hk
    refine hagree _ ?_
    calc i * steps + k < i * steps + steps := by omega
      _ = (i + 1) * steps := (Nat.succ_mul i steps).symm
      _ ≤ paths * steps := Nat.mul_le_mul_right steps (by omega)
  have hdps : (List.range paths).map (discountedPayoff spec payoff steps Z₁)
      = (List.range paths).map (discountedPayoff spec payoff steps Z₂) := by
    refine List.map_congr_left fun i hi => ?_
    unfold discountedPayoff
    rw [hdraws i (List.mem_range.mp hi)]
  unfold monte_carlo_price
  rw [if_neg hpaths, if_neg hpaths, if_neg hsteps, if_neg hsteps, hdps]


/-- Witness for C7: one path of one step; the two streams agree on the
single consumed draw (position 0) and differ everywhere else. -/
theorem monte_carlo_deterministic_witness :
    monte_carlo_price ⟨100, 0, 1, 1, 0⟩ (fun s _ => s) 1 1
        (fun n => if n < 1 then 1 else 0)
      = monte_carlo_price ⟨100, 0, 1, 1, 0⟩ (fun s _ => s) 1 1
        (fun n => if n < 1 then 1 else 2) :=
  monte_carlo_deterministic ⟨100, 0, 1, 1, 0⟩ (fun s _ => s) 1 1 _ _
    (fun n hn => by
      have h0 : n = 0 := by omega
      subst h0
      rfl)

end MonteCarlo

namespace PayoffExpr

/-!
Embedding of `build_payoff` of `monte_carlo_pricing.py`.

`build_payoff` compiles the user string with Python `compile(expr,
"<payoff>", "eval")` and evaluates it with
`eval(code, allowed_globals, {"s": s, "path": path})`, where
`allowed_globals` maps `__builtins__` to an empty dict and the names
`math`, `max`, `min`, `abs`, `sum`, `len` to the corresponding host
objects.  We embed the compiled code as an abstract syntax tree
(`PyExpr`) covering the Python expression forms relevant to the
claims — numeric and string literals, name references, arithmetic,
comparisons, conditional expressions and calls — and give it the
evaluation semantics of CPython on that fragment: names resolve through
the locals `s`/`path` and then the supplied globals, a missing name
raising `NameError`; a conditional expression evaluates only the
selected branch; a call evaluates the callee and then the arguments
left to right.  Numbers are modelled as rationals (CPython ints and
floats are conflated, so int-only operations such as string repetition
are outside the fragment and mapped to `TypeError`), and the math
module object carries no evaluable attributes here.

The fragment deliberately omits attribute access, subscription and
comprehensions.  These forms cannot be embedded faithfully — they
expose the unbounded CPython object graph — and they are exactly where
the real `build_payoff` sandbox breaks: with `__builtins__` bound to an
empty dict, CPython `eval` still resolves hosting-process attributes,
e.g. the classic chain `().__class__.__bases__[0].__subclasses__()`
reaches arbitrary loaded classes and through them the import machinery,
and a comprehension variable is an identifier outside the allow-list
that nonetheless binds and evaluates.  The design document itself warns
(section 9) that a name allow-list over a general evaluator cannot
bound the capability surface.  Theorems below are therefore statements
about this fragment; the fail-closed property of the specification
holds for bare-name resolution (`build_payoff_fails_closed`) but is
violated by the code as a whole, which is recorded as a code bug
against the sandboxing claim.
-/

/-- Python exceptions the embedded evaluator and the `float(...)`
conversion can raise. -/
inductive PyErr where
  | nameError (id : String)
  | typeError
  | zeroDivisionError
  | valueError
  deriving DecidableEq, Repr

/-- The five allow-listed builtin functions of `allowed_globals`. -/
inductive Builtin where
  | bmax
  | bmin
  | babs
  | bsum
  | blen
  deriving DecidableEq, Repr

/-- Values an embedded payoff expression can produce: numbers, bools
(from comparisons), strings, the `path` list of numbers, the `math`
module object, a builtin function, and the empty `__builtins__` dict. -/
inductive PyVal where
  | num (q : ℚ)
  | pybool (b : Bool)
  | str (v : String)
  | plist (xs : List ℚ)
  | mathMod
  | builtin (b : Builtin)
  | emptyDict
  deriving DecidableEq, Repr

/-- Arithmetic operators of the fragment. -/
inductive BinOp where
  | add
  | sub
  | mul
  | div
  deriving DecidableEq, Repr

/-- Comparison operators of the fragment. -/
inductive CmpOp where
  | lt
  | le
  | gt
  | ge
  | eq
  | ne
  deriving DecidableEq, Repr

/-- Abstract syntax of the embedded Python expression fragment.
`cond c t e` is the Python conditional expression `t if c else e`. -/
inductive PyExpr where
  | num (q : ℚ)
  | strLit (v : String)
  | name (id : String)
  | binop (op : BinOp) (a b : PyExpr)
  | cmp (op : CmpOp) (a b : PyExpr)
  | cond (c t e : PyExpr)
  | call (f : PyExpr) (args : List PyExpr)

/-- The local names bound by `eval(code, allowed_globals,
{"s": s, "path": path})`. -/
def localNames : List String := ["s", "path"]

/-- The keys of the `allowed_globals` dict of `build_payoff`. -/
def globalNames : List String :=
  ["__builtins__", "math", "max", "min", "abs", "sum", "len"]

/-- Name resolution of the embedded `eval`: locals first, then the
supplied globals (whose `__builtins__` entry is an empty dict, so no
builtin other than the six listed names resolves); any other name
raises `NameError`. -/
def lookupName (s : ℚ) (path : List ℚ) (id : String) : Except PyErr PyVal :=
  if id = "s" then .ok (.num s)
  else if id = "path" then .ok (.plist path)
  else if id = "__builtins__" then .ok .emptyDict
  else if id = "math" then .ok .mathMod
  else if id = "max" then .ok (.builtin .bmax)
  else if id = "min" then .ok (.builtin .bmin)
  else if id = "abs" then .ok (.builtin .babs)
  else if id = "sum" then .ok (.builtin .bsum)
  else if id = "len" then .ok (.builtin .blen)
  else .error (.nameError id)

/-- Numeric view of a value: Python bools are ints, so they are
numeric; nothing else is. -/
def toNum : PyVal → Option ℚ
  | .num q => some q
  | .pybool b => some (if b then 1 else 0)
  | _ => none

/-- Python truthiness: zero, the empty string, the empty list and the
empty dict are falsy; module and function objects are truthy. -/
def truthy : PyVal → Bool
  | .num q => decide (q ≠ 0)
  | .pybool b => b
  | .str v => decide (v ≠ "")
  | .plist xs => decide (xs ≠ [])
  | .mathMod => true
  | .builtin _ => true
  | .emptyDict => false

/-- Arithmetic on values: numeric operands use rational arithmetic
(division by zero raising `ZeroDivisionError`); `+` concatenates two
strings or two lists; every other combination raises `TypeError`. -/
def evalBinOp (op : BinOp) (a b : PyVal) : Except PyErr PyVal :=
  match toNum a, toNum b with
  | some x, some y =>
    match op with
    | .add => .ok (.num (x + y))
    | .sub => .ok (.num (x - y))
    | .mul => .ok (.num (x * y))
    | .div => if y = 0 then .error .zeroDivisionError else .ok (.num (x / y))
  | _, _ =>
    match op, a, b with
    | .add, .str x, .str y => .ok (.str (x ++ y))
    | .add, .plist x, .plist y => .ok (.plist (x ++ y))
    | _, _, _ => .error .typeError

/-- Python equality across the fragment: numeric operands compare as
numbers, same-shaped values compare structurally, and values of
unrelated types are unequal (never an error). -/
def pyEq (a b : PyVal) : Bool :=
  match toNum a, toNum b with
  | some x, some y => decide (x = y)
  | _, _ =>
    match a, b with
    | .str x, .str y => decide (x = y)
    | .plist x, .plist y => decide (x = y)
    | .mathMod, .mathMod => true
    | .builtin x, .builtin y => decide (x = y)
    | .emptyDict, .emptyDict => true
    | _, _ => false

/-- Lexicographic strict order on lists of rationals, mirroring Python
list comparison. -/
def listLt : List ℚ → List ℚ → Bool
  | [], [] => false
  | [], _ :: _ => true
  | _ :: _, [] => false
  | a :: as, b :: bs =>
    if a < b then true else if b < a then false else listLt as bs

/-- Comparisons: numeric operands compare as numbers; two strings or
two lists compare lexicographically; `==`/`!=` never raise; ordered
comparisons of unrelated types raise `TypeError`. -/
def evalCmp (op : CmpOp) (a b : PyVal) : Except PyErr PyVal :=
  match op with
  | .eq => .ok (.pybool (pyEq a b))
  | .ne => .ok (.pybool (!pyEq a b))
  | _ =>
    match toNum a, toNum b with
    | some x, some y =>
      .ok (.pybool (match op with
        | .lt => decide (x < y)
        | .le => decide (x ≤ y)
        | .gt => decide (y < x)
        | .ge => decide (y ≤ x)
        | _ => false))
    | _, _ =>
      match a, b with
      | .str x, .str y =>
        .ok (.pybool (match op with
          | .lt => decide (x < y)
          | .le => decide (x < y) || decide (x = y)
          | .gt => decide (y < x)
          | .ge => decide (y < x) || decide (x = y)
          | _ => false))
      | .plist x, .plist y =>
        .ok (.pybool (match op with
          | .lt => listLt x y
          | .le => listLt x y || decide (x = y)
          | .gt => listLt y x
          | .ge => listLt y x || decide (x = y)
          | _ => false))
      | _, _ => .error .typeError

/-- Numeric views of an argument list (all-numeric or nothing). -/
def allNums : List PyVal → Option (List ℚ)
  | [] => some []
  | a :: rest =>
    match toNum a, allNums rest with
    | some x, some xs => some (x :: xs)
    | _, _ => none

/-- Call semantics of the allow-listed builtins on the fragment:
`abs` of a number, `max`/`min` of a non-empty list of numbers or of two
or more numeric arguments (an empty list raising `ValueError` as in
Python), `sum` of a list (with optional numeric start), `len` of a
list or string.  Calling a non-callable (number, string, list, module,
dict) raises `TypeError`, as does any argument shape outside the
fragment (e.g. iterating a string). -/
def evalCall (f : PyVal) (args : List PyVal) : Except PyErr PyVal :=
  match f with
  | .builtin .babs =>
    match args with
    | [a] =>
      match toNum a with
      | some x => .ok (.num |x|)
      | none => .error .typeError
    | _ => .error .typeError
  | .builtin .bmax =>
    match args with
    | [.plist []] => .error .valueError
    | [.plist (x :: xs)] => .ok (.num (xs.foldl max x))
    | [_] => .error .typeError
    | args =>
      match allNums args with
      | some (x :: xs) => .ok (.num (xs.foldl max x))
      | _ => .error .typeError
  | .builtin .bmin =>
    match args with
    | [.plist []] => .error .valueError
    | [.plist (x :: xs)] => .ok (.num (xs.foldl min x))
    | [_] => .error .typeError
    | args =>
      match allNums args with
      | some (x :: xs) => .ok (.num (xs.foldl min x))
      | _ => .error .typeError
  | .builtin .bsum =>
    match args with
    | [.plist xs] => .ok (.num xs.sum)
    | [.plist xs, a] =>
      match toNum a with
      | some st => .ok (.num (st + xs.sum))
      | none => .error .typeError
    | _ => .error .typeError
  | .builtin .blen =>
    match args with
    | [.plist xs] => .ok (.num (xs.length : ℚ))
    | [.str v] => .ok (.num (v.length : ℚ))
    | _ => .error .typeError
  | _ => .error .typeError

mutual

/-- Evaluation of the embedded fragment under the locals
`{"s": s, "path": path}` and the `allowed_globals` of `build_payoff`:
literals evaluate to themselves, names resolve via `lookupName`,
operators and calls evaluate their operands left to right, and a
conditional expression evaluates only the branch selected by the
truthiness of its condition (Python's lazy conditional). -/
def evalExpr (s : ℚ) (path : List ℚ) : PyExpr → Except PyErr PyVal
  | .num q => .ok (.num q)
  | .strLit v => .ok (.str v)
  | .name id => lookupName s path id
  | .binop op a b => do
    let va ← evalExpr s path a
    let vb ← evalExpr s path b
    evalBinOp op va vb
  | .cmp op a b => do
    let va ← evalExpr s path a
    let vb ← evalExpr s path b
    evalCmp op va vb
  | .cond c t e => do
    let vc ← evalExpr s path c
    if truthy vc then evalExpr s path t else evalExpr s path e
  | .call f args => do
    let vf ← evalExpr s path f
    let vargs ← evalArgs s path args
    evalCall vf vargs

/-- Left-to-right evaluation of call arguments. -/
def evalArgs (s : ℚ) (path : List ℚ) : List PyExpr → Except PyErr (List PyVal)
  | [] => .ok []
  | a :: rest => do
    let v ← evalExpr s path a
    let vs ← evalArgs s path rest
    .ok (v :: vs)

end

/-- Numeric value of a list of decimal digit characters. -/
def digitsVal (cs : List Char) : ℚ :=
  cs.foldl (fun n c => 10 * n + ((c.toNat - 48 : ℕ) : ℚ)) 0

/-- Leading and trailing whitespace removal (Python `float` strips the
string before parsing). -/
def stripChars (cs : List Char) : List Char :=
  ((cs.dropWhile Char.isWhitespace).reverse.dropWhile Char.isWhitespace).reverse

/-- The value of a Python `float`: a finite number (modelled exactly as
a rational, in line with the exact-arithmetic reading of floats used
throughout this development), a signed infinity, or a NaN.  The
non-finite constructors exist because `float("inf")`, `float("-inf")`
and `float("nan")` succeed in Python even though no arithmetic in the
embedded fragment produces them. -/
inductive FloatVal where
  | finite (q : ℚ)
  | infinite (pos : Bool)
  | nan
  deriving DecidableEq, Repr

/-- CPython underscore rule for numeric literals accepted by
`float(str)`: every underscore must sit directly between two digits. -/
def underscoresOk (cs : List Char) : Bool :=
  (List.range cs.length).all fun i =>
    if cs.getD i ' ' = '_' then
      decide (0 < i) && (cs.getD (i - 1) ' ').isDigit &&
        (cs.getD (i + 1) ' ').isDigit
    else true

/-- Exponent part of a float literal: an optional sign followed by at
least one digit. -/
def parseExp (cs : List Char) : Option ℤ :=
  match cs with
  | '-' :: ds =>
    if ds ≠ [] ∧ ds.all Char.isDigit then
      some (-(ds.foldl (fun n c => 10 * n + ((c.toNat - 48 : ℕ) : ℤ)) 0))
    else none
  | '+' :: ds =>
    if ds ≠ [] ∧ ds.all Char.isDigit then
      some (ds.foldl (fun n c => 10 * n + ((c.toNat - 48 : ℕ) : ℤ)) 0)
    else none
  | ds =>
    if ds ≠ [] ∧ ds.all Char.isDigit then
      some (ds.foldl (fun n c => 10 * n + ((c.toNat - 48 : ℕ) : ℤ)) 0)
    else none

/-- Unsigned decimal core of a float literal, underscores already
removed: `digits [. digits] [exponent]` or `. digits [exponent]`, with
at least one mantissa digit. -/
def parseDecCore (cs : List Char) : Option ℚ :=
  let intPart := cs.takeWhile Char.isDigit
  let rest := cs.drop intPart.length
  match rest with
  | [] => if intPart = [] then none else some (digitsVal intPart)
  | '.' :: rest2 =>
    let frac := rest2.takeWhile Char.isDigit
    let rest3 := rest2.drop frac.length
    if intPart = [] ∧ frac = [] then none
    else
      let m := digitsVal intPart + digitsVal frac / (10 ^ frac.length)
      match rest3 with
      | [] => some m
      | e :: rest4 =>
        if e = 'e' ∨ e = 'E' then (parseExp rest4).map fun ex => m * (10 : ℚ) ^ ex
        else none
  | e :: rest2 =>
    if (e = 'e' ∨ e = 'E') ∧ intPart ≠ [] then
      (parseExp rest2).map fun ex => digitsVal intPart * (10 : ℚ) ^ ex
    else none

/-- Embedding of Python `float(string)`: strip surrounding whitespace,
take an optional sign, then accept (case-insensitively) `inf`,
`infinity` or `nan`, or a decimal literal with optional fractional part
and optional exponent, with underscores allowed between digits.
Returns `none` when `float` would raise `ValueError`.  (Non-ASCII
digit forms accepted by CPython are outside the ASCII fragment
modelled here; overflow of huge exponents to infinity is outside the
exact-arithmetic model, as everywhere in this development.) -/
def parsePyFloat (v : String) : Option FloatVal :=
  let cs := stripChars v.data
  let signed : Bool × List Char :=
    match cs with
    | '-' :: rest => (true, rest)
    | '+' :: rest => (false, rest)
    | _ => (false, cs)
  let low := strLower (String.mk signed.2)
  if low = "inf" ∨ low = "infinity" then some (.infinite (!signed.1))
  else if low = "nan" then some .nan
  else if underscoresOk signed.2 then
    (parseDecCore (signed.2.filter fun c => c ≠ '_')).map fun q =>
      .finite ((if signed.1 then -1 else 1) * q)
  else none

/-- Embedding of the `float(value)` conversion performed by the
compiled payoff: numbers (and bools, which are ints) convert to their
numeric value; strings convert exactly when `float(str)` accepts them
and raise `ValueError` otherwise; lists, modules, functions and dicts
raise `TypeError`. -/
def pyFloat : PyVal → Except PyErr FloatVal
  | .num q => .ok (.finite q)
  | .pybool b => .ok (.finite (if b then 1 else 0))
  | .str v =>
    match parsePyFloat v with
    | some f => .ok f
    | none => .error .valueError
  | _ => .error .typeError

/-- Embedding of one invocation of the callable returned by
`build_payoff`: evaluate the compiled expression, then apply
`float(...)` to the result. -/
def payoffRun (e : PyExpr) (s : ℚ) (path : List ℚ) : Except PyErr FloatVal :=
  (evalExpr s path e).bind pyFloat

mutual

/-- All identifiers referenced anywhere in an expression. -/
def refNames : PyExpr → List String
  | .num _ => []
  | .strLit _ => []
  | .name id => [id]
  | .binop _ a b => refNames a ++ refNames b
  | .cmp _ a b => refNames a ++ refNames b
  | .cond c t e => refNames c ++ refNames t ++ refNames e
  | .call f args => refNames f ++ refNamesList args

/-- All identifiers referenced in a list of expressions. -/
def refNamesList : List PyExpr → List String
  | [] => []
  | a :: rest => refNames a ++ refNamesList rest

end

/-- The identifier set the specification allows a payoff expression to
reference: the two locals plus the allow-listed function names and the
math namespace. -/
def allowedIdents : List String :=
  ["s", "path", "max", "min", "abs", "sum", "len", "math"]

/-- C1, failing input: the expression `s if s > 0 else os` references
the identifier `os`, which is outside `{s, path}` and the allow-listed
function set, yet `build_payoff` neither fails at compile time (the
expression is well-formed) nor at every invocation: invoked at `s = 1`
the compiled payoff returns `1.0`, because the Python conditional
expression evaluates lazily and the reference to `os` is never
resolved.  This evaluates the embedded code at the failing input of the
fail-closed requirement; the requirement is broken more severely by
attribute access, which the name allow-list does not restrict at all
(see the module comment). -/
theorem build_payoff_sandbox_failing_input :
    ("os" ∈ refNames (PyExpr.cond (.cmp .gt (.name ("s")) (.num 0))
        (.name ("s")) (.name ("os")))
      ∧ "os" ∉ allowedIdents)
    ∧ payoffRun (PyExpr.cond (.cmp .gt (.name ("s")) (.num 0))
        (.name ("s")) (.name ("os"))) 1 [1]
      = .ok (.finite 1) :=
  ⟨⟨by decide, by decide⟩, rfl⟩

/-- Bare-name resolution, in isolation, does fail closed: looking up
any identifier outside the two locals and the seven `allowed_globals`
keys raises `NameError`, and in particular invoking the compiled
`__import__("os")` raises `NameError` at every invocation.  This lemma
is deliberately scoped to name resolution: it does not extend to the
full expression language, where attribute access reaches
hosting-process objects regardless of the allow-list (the C1 bug). -/
theorem build_payoff_fails_closed (s : ℚ) (path : List ℚ) :
    (∀ id, id ∉ localNames ++ globalNames →
      evalExpr s path (.name id) = .error (.nameError id)) ∧
    payoffRun (.call (.name ("__import__")) [.strLit ("os")]) s path
      = .error (.nameError ("__import__")) := by
  constructor
  · intro id hid
    simp only [localNames, globalNames, List.cons_append, List.nil_append,
      List.mem_cons, List.not_mem_nil, or_false, not_or] at hid
    obtain ⟨h1, h2, h3, h4, h5, h6, h7, h8, h9⟩ := hid
    show lookupName s path id = _
    unfold lookupName
    rw [if_neg h1, if_neg h2, if_neg h3, if_neg h4, if_neg h5, if_neg h6,
      if_neg h7, if_neg h8, if_neg h9]
  · rfl

/-- Instance of the name-resolution lemma at concrete inputs: the
identifier `os` fails to resolve and `__import__("os")` fails at
`s = 0`, `path = []`. -/
theorem build_payoff_fails_closed_witness :
    evalExpr 0 [] (.name ("os")) = .error (.nameError ("os")) ∧
    payoffRun (.call (.name ("__import__")) [.strLit ("os")]) 0 []
      = .error (.nameError ("__import__")) :=
  ⟨(build_payoff_fails_closed 0 []).1 "os" (by decide),
    (build_payoff_fails_closed 0 []).2⟩

end PayoffExpr
